import Mathlib

/-!
Shallow embedding of `thesis_toolkit.pyx` (Markov-chain linguistic
steganography toolkit): the Enhanced encoder/decoder (canonical fixed-index
coding with an end-key marker) and the Existing encoder/decoder (Huffman
prefix coding with a literal-escape fallback).

Modelling conventions, mirrored from the Python/Cython source:
* tokens are `String`s; a context ("gram") is a `List String`
  (the source uses tuples); the model's `chain.model` dict is an
  insertion-ordered association list `List (Gram × Freqs)`;
* bitstreams are `List Bool` (the source uses `str` of `'0'/'1'`);
* Python exceptions (KeyError, ValueError on `int("",2)` / `list.index`,
  IndexError, ZeroDivisionError, `math.log2(0)` domain error,
  `None` attribute access) become `Except Err`;
* `random.randint(0, n-1)` / `random.choice` are modelled by an explicit
  `pick : Nat` parameter reduced mod the list length: this ranges over
  exactly the values the random source can produce;
* Python's `sorted(..., key=kv[1], reverse=True)` is a stable descending
  sort, embedded with `List.insertionSort` under `fun a b => b.2 ≤ a.2`
  (earlier elements are inserted in front of equal later ones, so ties
  keep insertion order, matching Python's stable sort);
* progress values `x / y` are kept unevaluated as a numerator/denominator
  pair (`StepRet.progress`), with Python's ZeroDivisionError made explicit;
* step functions return the post-state instead of mutating; a run that
  raises returns `Except.error` and discards the partially mutated state
  (claims below only concern non-raising behaviour and final outcomes).
-/

def START : String := "___BEGIN__"

def ENDTOK : String := "___END__"

abbrev Gram := List String

abbrev Freqs := List (String × Nat)

/-- Errors standing for the Python exceptions the toolkit can raise. -/
inductive Err where
  | modelKey      -- KeyError on `self.model.chain.model[gram]`
  | attrNone      -- AttributeError: `.keys()` on a missing `.get` result
  | emptyLog      -- math domain error: `log2(0)` on an empty candidate list
  | intEmpty      -- ValueError: `int("", 2)` on an exhausted bitstream
  | indexRange    -- IndexError on list indexing
  | valueAbsent   -- ValueError from `list.index(x)` when `x` is absent
  | charEmpty     -- IndexError from `token[-1]` on an empty token
  | randEmpty     -- ValueError/IndexError from random on an empty list
  | divZero       -- ZeroDivisionError in the progress computation
  | keyAbsent     -- KeyError on `huffman_code[next_token]`
  deriving DecidableEq, Repr

/-- Python return values of a `step()` call: `1` / `None` / a fraction
`num / den` kept unevaluated. -/
inductive StepRet where
  | complete
  | pynone
  | progress (num den : Nat)
  deriving DecidableEq, Repr

def orErr {α : Type} (o : Option α) (e : Err) : Except Err α :=
  match o with
  | some a => .ok a
  | none => .error e

instance {ε α : Type} [DecidableEq ε] [DecidableEq α] :
    DecidableEq (Except ε α) := fun x y =>
  match x, y with
  | .ok a, .ok b =>
    if h : a = b then isTrue (by rw [h])
    else isFalse (by intro hc; cases hc; exact h rfl)
  | .error a, .error b =>
    if h : a = b then isTrue (by rw [h])
    else isFalse (by intro hc; cases hc; exact h rfl)
  | .ok _, .error _ => isFalse (by intro hc; cases hc)
  | .error _, .ok _ => isFalse (by intro hc; cases hc)

/-! ### Bit-string utilities (Python `int(s, 2)`, `bin(i)[2:]`, `str.zfill`) -/

/-- `int(s, 2)`: big-endian value of a bit string. -/
def bitsToNat (bs : List Bool) : Nat :=
  bs.foldl (fun acc b => 2 * acc + (if b then 1 else 0)) 0

/-- Minimal big-endian binary digits of `n` (empty for `0`); fuel-structured
so the kernel can evaluate it. -/
def binAux : Nat → Nat → List Bool
  | 0, _ => []
  | fuel + 1, n => if n = 0 then [] else binAux fuel (n / 2) ++ [n % 2 == 1]

/-- `bin(i)[2:]` for `i ≥ 0`: at least one digit, `0 ↦ "0"`. -/
def pyBin (n : Nat) : List Bool :=
  if n = 0 then [false] else binAux n n

/-- `s.zfill(w)`: left-pad with `'0'` up to width `w` (an `Int`, since the
decoder can compute a negative width from a stray end-key character). -/
def zfill (w : Int) (bs : List Bool) : List Bool :=
  List.replicate (w - bs.length).toNat false ++ bs

/-- Python tokens `str(bitstream)` for the literal escape `<bits>`. -/
def bitsToStr (bs : List Bool) : String :=
  String.mk (bs.map (fun b => if b then '1' else '0'))

/-! ### The two-step bit-length computation (`ceil(log2 n)` then correction) -/

/-- Fuel-structured floor-log2 (kernel-evaluable). -/
def log2Fuel : Nat → Nat → Nat
  | 0, _ => 0
  | fuel + 1, n => if n < 2 then 0 else log2Fuel fuel (n / 2) + 1

def floorLog2 (n : Nat) : Nat := log2Fuel n n

/-- `ceil(log2 n)` as the source's float expression computes it for list
sizes (exact: smallest `L` with `n ≤ 2^L`, and `0` for `n ≤ 1`). -/
def ceilLog2 (n : Nat) : Nat :=
  if n ≤ 1 then 0 else floorLog2 (n - 1) + 1

/-- Lines 173-176 / 265-267: `bit_length = ceil(log2(n))`, then decrement
when `n < 2 ** bit_length`. -/
def pyBitLen (n : Nat) : Nat :=
  let L := ceilLog2 n
  if n < 2 ^ L then L - 1 else L

/-- Lines 284-288 (`EnhancedDecoder._choose_next_token`): same computation
with an extra `bit_length = 0 if list_length == 1 else bit_length` inside
the correction branch. -/
def decNextBitLen (n : Nat) : Nat :=
  let L := ceilLog2 n
  if n < 2 ^ L then (if n = 1 then 0 else L - 1) else L

/-! ### Stable descending sort (Python `sorted(items, key=kv[1], reverse=True)`) -/

/-- The comparator: `a` comes no later than `b` when `a`'s frequency is at
least `b`'s (descending order, equal frequencies tie). -/
def freqGe (a b : String × Nat) : Prop := b.2 ≤ a.2

instance : DecidableRel freqGe := fun a b => Nat.decLe b.2 a.2

instance : IsTotal (String × Nat) freqGe := ⟨fun a b => Nat.le_total b.2 a.2⟩

instance : IsTrans (String × Nat) freqGe :=
  ⟨fun _ _ _ hab hbc => Nat.le_trans hbc hab⟩

def sortDesc (fs : Freqs) : Freqs :=
  List.insertionSort freqGe fs

/-! ### The Markov model -/

/-- Read-only adapter over the markovify model: `state_size` plus the
insertion-ordered `chain.model` dict `context-tuple ↦ {token: frequency}`.
markovify always builds `state_size ≥ 1`. -/
structure Model where
  stateSize : Nat
  chain : List (Gram × Freqs)
  deriving Repr

def Model.keys (m : Model) : List Gram := m.chain.map (·.1)

def Model.lookup (m : Model) (g : Gram) : Option Freqs := List.lookup g m.chain

/-! ### EnhancedEncoder -/

namespace EnhancedEncoder

/-- Session state: the `cdef` fields of `EnhancedEncoder`. -/
structure St where
  bitstream : List Bool
  bitstreamLength0 : Nat
  entrypoints : List String
  currentGram : Option Gram
  outputTokens : List String
  exhausted : Bool
  finished : Bool
  endKey : Nat
  deriving DecidableEq, Repr

/-- `EnhancedEncoder._get_entrypoints` (lines 89-94). -/
def getEntrypoints (m : Model) : Except Err (List String) :=
  if m.stateSize = 1 then
    match m.lookup [START] with
    | some fs => .ok (fs.map (·.1))
    | none => .error .attrNone
  else
    .ok ((((m.keys).filter
      (fun key => key.count START = m.stateSize - 1)).map
        (fun key => key.getLastD (""))).drop 1)

/-- `EnhancedEncoder.__init__`. -/
def init (m : Model) (bits : List Bool) : Except Err St := do
  let eps ← getEntrypoints m
  .ok { bitstream := bits, bitstreamLength0 := bits.length, entrypoints := eps,
        currentGram := none, outputTokens := [], exhausted := true,
        finished := false, endKey := 0 }

/-- Result of `_consume_from_list`: the selected token, the removed bit
slice, the bit length, the decoded index, and the remaining bitstream. -/
structure ConsumeRes where
  token : String
  removed : List Bool
  bitLen : Nat
  encIdx : Nat
  rest : List Bool
  deriving DecidableEq, Repr

/-- `EnhancedEncoder._consume_from_list` (lines 171-183). -/
def consumeFromList (bs : List Bool) (lst : List String) : Except Err ConsumeRes :=
  if lst.length = 0 then .error .emptyLog
  else
    let L := pyBitLen lst.length
    if L ≠ 0 ∧ bs = [] then .error .intEmpty
    else
      let idx := if L = 0 then 0 else bitsToNat (bs.take L)
      match lst.get? idx with
      | none => .error .indexRange
      | some tok => .ok ⟨tok, bs.take L, L, idx, bs.drop L⟩

/-- `EnhancedEncoder._inject_end_key` (lines 157-162); `pick` models the
single `random.randint(0, len(output_tokens) - 1)` draw. -/
def injectEndKey (pick : Nat) (removed : List Bool) (st : St) : Except Err St :=
  if st.outputTokens = [] then .error .randEmpty
  else
    let c := removed.length
    let i := pick % st.outputTokens.length
    .ok { st with
          endKey := c,
          outputTokens :=
            st.outputTokens.set i
              ((st.outputTokens.getD i ("")).push (Char.ofNat (97 + c))),
          finished := true }

/-- `EnhancedEncoder._choose_entrypoint` (lines 122-134).  Model tokens are
strings, so the `type(next_token) == tuple` branch is never taken. -/
def chooseEntrypoint (m : Model) (pick : Nat) (st : St) : Except Err St := do
  let st := { st with exhausted := false }
  let r ← consumeFromList st.bitstream st.entrypoints
  let gram : Gram :=
    if m.stateSize = 1 then [r.token]
    else List.replicate (m.stateSize - 1) START ++ [r.token]
  let st := { st with currentGram := some gram,
                      outputTokens := st.outputTokens ++ [r.token],
                      bitstream := r.rest }
  if r.rest = [] then injectEndKey pick r.removed st else .ok st

/-- `EnhancedEncoder._get_transitions` (lines 185-190). -/
def getTransitions (m : Model) (gram : Gram) : Except Err (List String) := do
  let fs ← orErr (m.lookup gram) .modelKey
  .ok ((sortDesc fs).map (·.1))

/-- `EnhancedEncoder._choose_next_token` (lines 136-155). -/
def chooseNextToken (m : Model) (pick : Nat) (st : St) : Except Err St := do
  let gram ← orErr st.currentGram .modelKey
  let transitions ← getTransitions m gram
  if ENDTOK ∈ transitions then
    .ok { st with exhausted := true }
  else
    let r ← consumeFromList st.bitstream transitions
    let nextGram := (gram ++ [r.token]).drop 1
    let st := { st with currentGram := some nextGram,
                        outputTokens := st.outputTokens ++ [r.token],
                        bitstream := r.rest }
    if r.rest = [] then injectEndKey pick r.removed st else .ok st

/-- `EnhancedEncoder.step` (lines 105-120). -/
def step (m : Model) (pick : Nat) (st : St) : Except Err (St × StepRet) :=
  if st.finished then .ok (st, .complete)
  else do
    let st' ← if st.exhausted then chooseEntrypoint m pick st
              else chooseNextToken m pick st
    if st'.bitstreamLength0 = 0 then .error .divZero
    else .ok (st', .progress (st'.bitstreamLength0 - st'.bitstream.length)
                             st'.bitstreamLength0)

/-- Python `" ".join(tokens)` (the `output` property). -/
def pyJoinSpace : List String → String
  | [] => ""
  | [t] => t
  | t :: rest => t ++ (" ") ++ pyJoinSpace rest

/-- `EnhancedEncoder.generate` (lines 164-169), fuelled; `.ok none` means
the fuel ran out before `finished` was set. -/
def run (m : Model) (pick : Nat) : Nat → St → Except Err (Option String)
  | 0, _ => .ok none
  | fuel + 1, st =>
    if st.finished then .ok (some (pyJoinSpace st.outputTokens))
    else do
      let (st', _) ← step m pick st
      run m pick fuel st'

def generate (m : Model) (pick : Nat) (bits : List Bool) (fuel : Nat) :
    Except Err (Option String) := do
  run m pick fuel (← init m bits)

end EnhancedEncoder

/-! ### EnhancedDecoder -/

/-- Python `s.split(" ")`: split on every single space, keeping empty
pieces; `"".split(" ") == [""]`. -/
def splitSpaceAux : List Char → List (List Char)
  | [] => [[]]
  | c :: cs =>
    if c = ' ' then [] :: splitSpaceAux cs
    else
      match splitSpaceAux cs with
      | [] => [[c]]
      | h :: t => (c :: h) :: t

def pySplitSpace (s : String) : List String :=
  (splitSpaceAux s.data).map String.mk

namespace EnhancedDecoder

/-- Session state: the `cdef` fields of `EnhancedDecoder`.  `endkey` is an
`Int` because `ord(token[-1]) - 97` can be negative in Python. -/
structure St where
  stegaText : List String
  entrypoints : List String
  output : List Bool
  endkey : Int
  currentGram : Option Gram
  exhausted : Bool
  finished : Bool
  index : Nat
  deriving DecidableEq, Repr

/-- `EnhancedDecoder._get_entrypoints` (lines 227-232), textually identical
to the encoder's copy. -/
def getEntrypoints (m : Model) : Except Err (List String) :=
  if m.stateSize = 1 then
    match m.lookup [START] with
    | some fs => .ok (fs.map (·.1))
    | none => .error .attrNone
  else
    .ok ((((m.keys).filter
      (fun key => key.count START = m.stateSize - 1)).map
        (fun key => key.getLastD (""))).drop 1)

/-- `EnhancedDecoder.__init__`. -/
def init (m : Model) (stegaText : String) : Except Err St := do
  let eps ← getEntrypoints m
  .ok { stegaText := pySplitSpace stegaText, entrypoints := eps, output := [],
        endkey := 0, currentGram := none, exhausted := true,
        finished := false, index := 0 }

/-- `EnhancedDecoder._get_transitions` (lines 329-334), textually identical
to the encoder's copy. -/
def getTransitions (m : Model) (gram : Gram) : Except Err (List String) := do
  let fs ← orErr (m.lookup gram) .modelKey
  .ok ((sortDesc fs).map (·.1))

/-- `EnhancedDecoder._choose_entrypoint` (lines 254-274). -/
def chooseEntrypoint (m : Model) (st : St) : Except Err St := do
  let st := { st with exhausted := false }
  let token0 ← orErr (st.stegaText.get? st.index) .indexRange
  -- end-key detection: a token absent from the entrypoints has its last
  -- character interpreted as the end-key and stripped
  let (endkey, token) ←
    if token0 ∈ st.entrypoints then .ok (st.endkey, token0)
    else
      match token0.data.getLast? with
      | none => .error .charEmpty
      | some c => .ok (((c.toNat : Int) - 97, String.mk token0.data.dropLast))
  let embeddedIndex ← orErr (st.entrypoints.findIdx? (· == token)) .valueAbsent
  let bitLength : Int := pyBitLen st.entrypoints.length
  let bitLength : Int :=
    if (st.index : Int) = (st.stegaText.length : Int) - 1 then endkey
    else bitLength
  let bitString := zfill bitLength (pyBin embeddedIndex)
  let gram : Gram :=
    if m.stateSize = 1 then [token]
    else List.replicate (m.stateSize - 1) START ++ [token]
  .ok { st with endkey := endkey, currentGram := some gram,
                output := st.output ++ bitString }

/-- `EnhancedDecoder._choose_next_token` (lines 276-319). -/
def chooseNextToken (m : Model) (st : St) : Except Err St := do
  let gram ← orErr st.currentGram .modelKey
  let transitions ← getTransitions m gram
  let atEnd := (st.index : Int) = (st.stegaText.length : Int) - 1
  -- lines 283-288: the bit length is computed before the END check, so an
  -- empty transition list raises the log2(0) domain error here
  if transitions.length = 0 then .error .emptyLog
  else
  let bitLength : Int := decNextBitLen transitions.length
  if ENDTOK ∈ transitions then
    .ok { st with exhausted := true, currentGram := none, index := st.index + 1 }
  else do
    let next0 ←
      if atEnd then .ok ("")
      else orErr (st.stegaText.get? (st.index + 1)) .indexRange
    -- end-key detection on the upcoming literal token
    let (endkey, next) ←
      if next0 ∉ transitions ∧ ¬ atEnd then
        match next0.data.getLast? with
        | none => .error .charEmpty
        | some c => .ok (((c.toNat : Int) - 97, String.mk next0.data.dropLast))
      else .ok (st.endkey, next0)
    let bitLength : Int :=
      if (st.index : Int) = (st.stegaText.length : Int) - 2 then endkey
      else bitLength
    let bitString ←
      if bitLength ≠ 0 then
        if atEnd then .ok ([] : List Bool)
        else do
          let embeddedIndex ← orErr (transitions.findIdx? (· == next)) .valueAbsent
          .ok (zfill bitLength (pyBin embeddedIndex))
      else .ok ([] : List Bool)
    let nextGram := (gram ++ [next]).drop 1
    .ok { st with endkey := endkey, currentGram := some nextGram,
                  output := st.output ++ bitString, index := st.index + 1 }

/-- `EnhancedDecoder.step` (lines 234-251).  Note there is no `finished`
guard: the terminating branch re-fires (idempotently) once finished. -/
def step (m : Model) (st : St) : Except Err (St × StepRet) :=
  if (st.stegaText.length : Int) - 1 ≤ (st.index : Int) ∧ st.exhausted = false then
    .ok ({ st with finished := true }, .complete)
  else do
    let st' ← if st.exhausted then chooseEntrypoint m st else chooseNextToken m st
    if st'.stegaText.length = 0 then .error .divZero
    else .ok (st', .progress st'.index st'.stegaText.length)

/-- `EnhancedDecoder.solve` (lines 322-327), fuelled; `.ok none` means the
fuel ran out before `finished` was set. -/
def run (m : Model) : Nat → St → Except Err (Option (List Bool))
  | 0, _ => .ok none
  | fuel + 1, st =>
    if st.finished then .ok (some st.output)
    else do
      let (st', _) ← step m st
      run m fuel st'

def solve (m : Model) (stegaText : String) (fuel : Nat) :
    Except Err (Option (List Bool)) := do
  run m fuel (← init m stegaText)

end EnhancedDecoder

/-! ### Huffman codebook (model of the external `huffman.codebook` library)

The Existing algorithms call `huffman.codebook([(token, freq), ...])`, an
external dependency that returns a prefix code `token ↦ bit-string` built by
repeatedly merging the two lowest-weight nodes.  The claims below never
depend on the library's tie-breaking, only on it being a fixed deterministic
prefix code, which this executable model provides. -/

inductive HTree where
  | leaf : String → HTree
  | node : HTree → HTree → HTree
  deriving DecidableEq, Repr

/-- Extract the first minimum-weight node. -/
def pickMin : (HTree × Nat) → List (HTree × Nat) → ((HTree × Nat) × List (HTree × Nat))
  | x, [] => (x, [])
  | x, y :: ys =>
    if y.2 < x.2 then
      let (mn, rest) := pickMin y ys
      (mn, x :: rest)
    else
      let (mn, rest) := pickMin x ys
      (mn, y :: rest)

def buildHuff : Nat → List (HTree × Nat) → Option HTree
  | _, [] => none
  | _, [t] => some t.1
  | 0, _ => none
  | fuel + 1, x :: y :: rest =>
    let (a, r1) := pickMin x (y :: rest)
    match r1 with
    | [] => some a.1
    | z :: zs =>
      let (b, r2) := pickMin z zs
      buildHuff fuel ((HTree.node a.1 b.1, a.2 + b.2) :: r2)

def hCodes (acc : List Bool) : HTree → List (String × List Bool)
  | .leaf s => [(s, acc)]
  | .node l r => hCodes (acc ++ [false]) l ++ hCodes (acc ++ [true]) r

/-- `huffman.codebook` as a `token ↦ code` association list. -/
def huffmanCodebook (fs : Freqs) : List (String × List Bool) :=
  match buildHuff fs.length (fs.map (fun kv => (HTree.leaf kv.1, kv.2))) with
  | none => []
  | some t => hCodes [] t

/-- `max([len(n) for n in huffman_code.keys()])` over the inverted dict. -/
def treeDepth (cb : List (String × List Bool)) : Nat :=
  (cb.map (·.2.length)).foldl max 0

/-- `re.match(r"<[01]+>", token)`: an anchored match, so a literal-escape
shape at the start suffices (trailing characters are allowed). -/
def isLiteralEscape (s : String) : Bool :=
  match s.data with
  | '<' :: rest =>
    let ds := rest.takeWhile (fun c => c == '0' || c == '1')
    (!ds.isEmpty) && ((rest.drop ds.length).head? == some ('>'))
  | _ => false

/-! ### ExistingEncoder -/

namespace ExistingEncoder

/-- Session state: the `cdef` fields of `ExistingEncoder`. -/
structure St where
  bitstream : List Bool
  bitstreamLength0 : Nat
  entrypoints : List Gram
  currentGram : Option Gram
  outputTokens : List String
  exhausted : Bool
  finished : Bool
  c : Nat
  deriving DecidableEq, Repr

/-- `ExistingEncoder.__init__` (line 355): the entrypoints are the full
context keys containing START, with the first dropped. -/
def init (m : Model) (bits : List Bool) : St :=
  { bitstream := bits, bitstreamLength0 := bits.length,
    entrypoints := ((m.keys).filter (fun key => START ∈ key)).drop 1,
    currentGram := none, outputTokens := [], exhausted := true,
    finished := false, c := 1 }

/-- The `for i in range(tree_depth, 0, -1)` codeword search (lines 401-408):
lengths `i ≥ len(bitstream)` are skipped by the `continue`, matches are
looked up in the inverted codebook. -/
def findCodeword (cb : List (String × List Bool)) (bs : List Bool) :
    Nat → Option (String × Nat)
  | 0 => none
  | i + 1 =>
    if bs.length ≤ i + 1 then findCodeword cb bs i
    else
      match cb.find? (fun p => p.2 == bs.take (i + 1)) with
      | some p => some (p.1, i + 1)
      | none => findCodeword cb bs i

/-- `ExistingEncoder.step` (lines 371-432); `pick` models the
`random.choice(self.entrypoints)` draw. -/
def step (m : Model) (pick : Nat) (st : St) : Except Err (St × StepRet) :=
  if st.finished then .ok (st, .pynone)
  else do
    let st' ←
      if st.exhausted then do
        let st := { st with exhausted := false }
        if h : st.entrypoints.length = 0 then .error .randEmpty
        else do
          let gram := st.entrypoints.get ⟨pick % st.entrypoints.length,
            Nat.mod_lt _ (Nat.pos_of_ne_zero h)⟩
          let token ← orErr (gram.get? 1) .indexRange
          .ok { st with currentGram := some gram,
                        outputTokens := st.outputTokens ++ [token] }
      else do
        let gram ← orErr st.currentGram .modelKey
        let transMatrix ← orErr (m.lookup gram) .modelKey
        let (st, nextToken) ←
          if 1 < transMatrix.length then
            let st := { st with c := st.c + 1 }
            let codebook := huffmanCodebook transMatrix
            let (nextToken, count) :=
              match findCodeword codebook st.bitstream (treeDepth codebook) with
              | some (tok, cnt) => (tok, cnt)
              | none => ((("<") ++ bitsToStr st.bitstream ++ (">")),
                         st.bitstream.length)
            .ok ({ st with bitstream := st.bitstream.drop count }, nextToken)
          else
            match transMatrix.head? with
            | none => .error .indexRange
            | some kv => .ok (st, kv.1)
        let nextGram := (gram ++ [nextToken]).drop 1
        let st := { st with currentGram := some nextGram }
        if nextToken ≠ ENDTOK then
          .ok { st with outputTokens := st.outputTokens ++ [nextToken] }
        else
          .ok { st with exhausted := true, currentGram := none }
    let st' := if st'.bitstream = [] then { st' with finished := true } else st'
    if st'.bitstreamLength0 = 0 then .error .divZero
    else .ok (st', .progress (st'.bitstreamLength0 - st'.bitstream.length)
                             st'.bitstreamLength0)

end ExistingEncoder

/-! ### ExistingDecoder -/

namespace ExistingDecoder

/-- Session state: the `cdef` fields of `ExistingDecoder`. -/
structure St where
  stegaText : List String
  entrypoints : List String
  endkey : Int
  currentGram : Option Gram
  index : Nat
  exhausted : Bool
  finished : Bool
  output : List Bool
  deriving DecidableEq, Repr

/-- `ExistingDecoder.__init__` (line 457): element 1 of every key
containing START, with the first dropped; `key[1]` raises IndexError on a
key shorter than 2. -/
def initEntrypoints (m : Model) : Except Err (List String) := do
  let filtered := (m.keys).filter (fun key => START ∈ key)
  let eps ← filtered.mapM (fun key => orErr (key.get? 1) .indexRange)
  .ok (eps.drop 1)

def init (m : Model) (stegaText : String) : Except Err St := do
  let eps ← initEntrypoints m
  .ok { stegaText := pySplitSpace stegaText, entrypoints := eps, endkey := 0,
        currentGram := none, index := 0, exhausted := true, finished := false,
        output := [] }

/-- The sentence-terminal test `self.current_gram[1][-1] in ".?!"`. -/
def gramEndsTerminal (gram : Gram) : Except Err Bool := do
  let t1 ← orErr (gram.get? 1) .indexRange
  match t1.data.getLast? with
  | none => .error .charEmpty
  | some c => .ok (c = '.' ∨ c = '?' ∨ c = '!')

/-- `ExistingDecoder.step` (lines 473-532).  The dead local `previous`
(line 492) has no effect and is omitted. -/
def step (m : Model) (st : St) : Except Err (St × StepRet) :=
  if (st.stegaText.length : Int) - 1 ≤ (st.index : Int) ∧ st.exhausted = false then
    .ok ({ st with finished := true }, .pynone)
  else do
    let st' ←
      if st.exhausted then do
        let token ← orErr (st.stegaText.get? st.index) .indexRange
        .ok { st with currentGram := some [START, token], exhausted := false }
      else do
        let gram ← orErr st.currentGram .modelKey
        let transMatrix ← orErr (m.lookup gram) .modelKey
        let atEnd := (st.index : Int) = (st.stegaText.length : Int) - 1
        let nextToken0 ←
          if atEnd then .ok ("")
          else orErr (st.stegaText.get? (st.index + 1)) .indexRange
        let keys := transMatrix.map (·.1)
        let (nextToken, exhausted, bitString) ←
          if 1 < transMatrix.length then do
            let codebook := huffmanCodebook transMatrix
            let _ := treeDepth codebook
            let punct ← gramEndsTerminal gram
            let (nextToken1, exhausted1) :=
              if punct ∧ ENDTOK ∈ keys ∧ nextToken0 ∉ keys then (ENDTOK, true)
              else (nextToken0, st.exhausted)
            if isLiteralEscape nextToken1 then
              .ok (("INVALID TOKEN {next_token}"), exhausted1, ([] : List Bool))
            else do
              let bitString ←
                if atEnd then .ok ([] : List Bool)
                else orErr (codebook.lookup nextToken1) .keyAbsent
              .ok (nextToken1, exhausted1, bitString)
          else do
            let punct ← gramEndsTerminal gram
            if punct ∧ ENDTOK ∈ keys then .ok (ENDTOK, true, ([] : List Bool))
            else .ok (nextToken0, st.exhausted, ([] : List Bool))
        let nextGram := (gram ++ [nextToken]).drop 1
        .ok { st with currentGram := some nextGram, exhausted := exhausted,
                      index := st.index + 1, output := st.output ++ bitString }
    if st'.stegaText.length = 0 then .error .divZero
    else .ok (st', .progress st'.index st'.stegaText.length)

/-- `ExistingDecoder.solve` (lines 534-539), fuelled. -/
def run (m : Model) : Nat → St → Except Err (Option (List Bool))
  | 0, _ => .ok none
  | fuel + 1, st =>
    if st.finished then .ok (some st.output)
    else do
      let (st', _) ← step m st
      run m fuel st'

def solve (m : Model) (stegaText : String) (fuel : Nat) :
    Except Err (Option (List Bool)) := do
  run m fuel (← init m stegaText)

end ExistingDecoder

/-! ### Concrete models and states used to settle the claims -/

/-- A markovify-style model (`state_size = 2`) whose sentences start only
with `x` or `y`: after the source's `[1:]` drop the Enhanced entrypoints
list is the singleton `["y"]`.  Every chain context offers the two
candidates `a`/`b`, so each interior step carries one payload bit. -/
def roundTripModel : Model :=
  ⟨2, [([START, START], [(("x"), 1), (("y"), 1)]),
       ([START, ("x")], [(("a"), 1)]),
       ([START, ("y")], [(("a"), 2), (("b"), 1)]),
       ([("y"), ("b")], [(("a"), 2), (("b"), 1)]),
       ([("b"), ("a")], [(("a"), 2), (("b"), 1)]),
       ([("a"), ("b")], [(("a"), 2), (("b"), 1)]),
       ([("b"), ("b")], [(("a"), 2), (("b"), 1)]),
       ([("a"), ("a")], [(("a"), 2), (("b"), 1)])]⟩

/-- One byte, `0xB2 = 10110010`. -/
def roundTripPayload : List Bool :=
  [true, false, true, true, false, false, true, false]

/-- The spec's entry-point extraction example: `k = 2` with keys
`[(START,START), (START,"the"), (START,"a")]` in insertion order. -/
def entryModel : Model :=
  ⟨2, [([START, START], [(("the"), 1), (("a"), 1)]),
       ([START, ("the")], [(("x"), 1)]),
       ([START, ("a")], [(("y"), 1)])]⟩

/-- Model for the literal-escape decode scenario (Existing family). -/
def literalModel : Model :=
  ⟨2, [([START, START], [(("u"), 1)]),
       ([START, ("u")], [(("p"), 1), (("q"), 1)]),
       ([("u"), ("p")], [(("p"), 2), (("q"), 1)])]⟩

/-- Model whose entry token ends in `'.'` and whose transitions contain both
a real candidate `x` and END. -/
def punctModel : Model :=
  ⟨2, [([START, START], [(("go."), 1)]),
       ([START, ("go.")], [(("x"), 2), (ENDTOK, 1)]),
       ([("go."), ("x")], [(("x"), 1)])]⟩

/-- The `ExistingDecoder` state reached from
`init punctModel "go. x x"` after one (entry) step. -/
def punctState : ExistingDecoder.St :=
  { stegaText := [("go."), ("x"), ("x")], entrypoints := [("go.")], endkey := 0,
    currentGram := some [START, ("go.")], index := 0, exhausted := false,
    finished := false, output := [] }

/-- Like `punctState` but the upcoming literal token `z` is not a valid
transition, so the punctuation heuristic fires. -/
def punctStateForced : ExistingDecoder.St :=
  { stegaText := [("go."), ("z"), ("w")], entrypoints := [("go.")], endkey := 0,
    currentGram := some [START, ("go.")], index := 0, exhausted := false,
    finished := false, output := [] }

/-- A `state_size = 3` model for the Existing-family shape claims. -/
def size3Model : Model :=
  ⟨3, [([START, START, START], [(("w"), 1)]),
       ([START, START, ("w")], [(("v"), 1)]),
       ([START, START, ("v")], [(("w"), 1)])]⟩

/-- A `state_size = 2` model with two usable Enhanced entrypoints
(`q` and `r` survive the `[1:]` drop). -/
def emptyBitsModel : Model :=
  ⟨2, [([START, START], [(("p"), 1)]),
       ([START, ("p")], [(("x"), 1)]),
       ([START, ("q")], [(("x"), 1)]),
       ([START, ("r")], [(("x"), 1)])]⟩

/-- A finished Enhanced-encoder state (as produced by a completed run). -/
def finishedEncState : EnhancedEncoder.St :=
  { bitstream := [], bitstreamLength0 := 1, entrypoints := [("q"), ("r")],
    currentGram := some [START, ("q")], outputTokens := [("qb")],
    exhausted := false, finished := true, endKey := 1 }

/-! ## Helper lemmas -/

theorem log2Fuel_eq : ∀ (fuel n : Nat), n ≤ fuel → log2Fuel fuel n = Nat.log 2 n
  | 0, n, h => by
    interval_cases n
    simp [log2Fuel]
  | fuel + 1, n, h => by
    unfold log2Fuel
    by_cases h2 : n < 2
    · simp only [h2, if_true]
      exact (Nat.log_eq_zero_iff.mpr (Or.inl h2)).symm
    · have hn : 2 ≤ n := Nat.not_lt.mp h2
      have hdiv : n / 2 < n := Nat.div_lt_self (by omega) (by omega)
      have hfuel : n / 2 ≤ fuel := by omega
      simp only [h2, if_false]
      rw [log2Fuel_eq fuel (n / 2) hfuel, Nat.log_div_base]
      have hpos : 0 < Nat.log 2 n := Nat.log_pos (by omega) hn
      omega

theorem floorLog2_eq (n : Nat) : floorLog2 n = Nat.log 2 n :=
  log2Fuel_eq n n (Nat.le_refl n)

theorem pyBitLen_eq_log (n : Nat) (h : 1 ≤ n) : pyBitLen n = Nat.log 2 n := by
  rcases Nat.lt_or_ge n 2 with h1 | h2
  · interval_cases n
    simp [pyBitLen, ceilLog2, Nat.log_eq_zero_iff]
  · have hceil : ceilLog2 n = Nat.log 2 (n - 1) + 1 := by
      unfold ceilLog2
      rw [if_neg (by omega), floorLog2_eq]
    set j := Nat.log 2 n with hj
    have hlow : 2 ^ j ≤ n := Nat.pow_log_le_self 2 (by omega)
    have hhigh : n < 2 ^ (j + 1) := Nat.lt_pow_succ_log_self (by omega) n
    have hjpos : 1 ≤ j := Nat.log_pos (by omega) h2
    rcases Nat.eq_or_lt_of_le hlow with heq | hlt
    · -- n is a power of two: ceil(log2 n) = j, no correction
      have hj1 : j - 1 + 1 = j := by omega
      have hsplit : 2 ^ (j - 1) * 2 = 2 ^ j := by
        rw [← pow_succ, hj1]
      have hppos : 0 < 2 ^ (j - 1) := Nat.pos_pow_of_pos _ (by omega)
      have hlog : Nat.log 2 (n - 1) = j - 1 := by
        apply Nat.log_eq_of_pow_le_of_lt_pow
        · omega
        · rw [hj1]
          omega
      unfold pyBitLen
      rw [hceil, hlog, hj1]
      rw [if_neg (by omega)]
    · -- 2^j < n: ceil(log2 n) = j + 1, corrected down to j
      have hlog : Nat.log 2 (n - 1) = j := by
        apply Nat.log_eq_of_pow_le_of_lt_pow
        · omega
        · omega
      unfold pyBitLen
      rw [hceil, hlog]
      simp only [hhigh, if_true]
      omega

theorem decNextBitLen_eq (n : Nat) : decNextBitLen n = pyBitLen n := by
  unfold decNextBitLen pyBitLen
  by_cases hlt : n < 2 ^ ceilLog2 n
  · simp only [hlt, if_true]
    by_cases h1 : n = 1
    · subst h1
      simp [ceilLog2] at hlt
    · simp [h1]
  · simp [hlt]

theorem pyBitLen_pos (n : Nat) (h : 2 ≤ n) : 1 ≤ pyBitLen n := by
  rw [pyBitLen_eq_log n (by omega)]
  exact Nat.log_pos (by omega) h

theorem sortDesc_perm (fs : Freqs) : List.Perm (sortDesc fs) fs :=
  List.perm_insertionSort freqGe fs

theorem sortDesc_sorted (fs : Freqs) : List.Sorted freqGe (sortDesc fs) :=
  List.sorted_insertionSort freqGe fs

theorem filter_orderedInsert (q : Nat) (x : String × Nat) (l : Freqs) :
    (List.orderedInsert freqGe x l).filter (fun kv => kv.2 == q) =
      if x.2 = q then x :: l.filter (fun kv => kv.2 == q)
      else l.filter (fun kv => kv.2 == q) := by
  induction l with
  | nil =>
    by_cases hx : x.2 = q <;>
      simp [List.orderedInsert, List.filter_cons, hx]
  | cons y ys ih =>
    by_cases hle : freqGe x y
    · rw [List.orderedInsert_of_le _ _ hle]
      by_cases hx : x.2 = q <;> simp [List.filter_cons, hx]
    · have hstep : List.orderedInsert freqGe x (y :: ys) =
        y :: List.orderedInsert freqGe x ys := by
        simp [List.orderedInsert, hle]
      rw [hstep]
      have hxy : x.2 < y.2 := by
        simp only [freqGe] at hle
        omega
      by_cases hx : x.2 = q
      · have hy : ¬ y.2 = q := by omega
        simp [List.filter_cons, hx, hy, ih]
      · by_cases hy : y.2 = q <;> simp [List.filter_cons, hx, hy, ih]

theorem filter_sortDesc (fs : Freqs) (q : Nat) :
    (sortDesc fs).filter (fun kv => kv.2 == q) =
      fs.filter (fun kv => kv.2 == q) := by
  induction fs with
  | nil => rfl
  | cons x l ih =>
    show (List.orderedInsert freqGe x (sortDesc l)).filter _ = _
    rw [filter_orderedInsert]
    by_cases hx : x.2 = q <;> simp [List.filter_cons, hx, ih]

/-- Successful `_consume_from_list` calls take exactly the canonical slice
off the front of the bitstream. -/
theorem consumeFromList_ok {bs : List Bool} {lst : List String}
    {r : EnhancedEncoder.ConsumeRes}
    (h : EnhancedEncoder.consumeFromList bs lst = .ok r) :
    lst.length ≠ 0 ∧ r.removed = bs.take (pyBitLen lst.length) ∧
      r.bitLen = pyBitLen lst.length ∧ r.rest = bs.drop (pyBitLen lst.length) := by
  unfold EnhancedEncoder.consumeFromList at h
  split at h
  · exact absurd h (by simp)
  · next hne =>
    dsimp only at h
    split at h
    · exact absurd h (by simp)
    · split at h
      · exact absurd h (by simp)
      · next tok heq =>
        cases h
        exact ⟨hne, rfl, rfl, rfl⟩

/-- C6: for every candidate list of size `n ≥ 1`, the bit length computed by
`EnhancedEncoder._consume_from_list` and by
`EnhancedDecoder._choose_next_token` equals `floor(log2 n)`; a successful
consumption removes exactly `min (floor(log2 n)) |bitstream|` bits, and for
`n = 1` no bits are consumed.  (So whenever at least `floor(log2 n)` bits
remain — every step except possibly the final one — exactly `floor(log2 n)`
bits are consumed.) -/
theorem C6_code_length_formula (n : Nat) (h : 1 ≤ n) :
    pyBitLen n = Nat.log 2 n ∧ decNextBitLen n = Nat.log 2 n ∧
    (∀ (bs : List Bool) (lst : List String) (r : EnhancedEncoder.ConsumeRes),
      lst.length = n → EnhancedEncoder.consumeFromList bs lst = .ok r →
      r.removed.length = min (Nat.log 2 n) bs.length) ∧
    (n = 1 → ∀ (bs : List Bool) (lst : List String)
      (r : EnhancedEncoder.ConsumeRes),
      lst.length = n → EnhancedEncoder.consumeFromList bs lst = .ok r →
      r.removed = []) := by
  refine ⟨pyBitLen_eq_log n h, ?_, ?_, ?_⟩
  · rw [decNextBitLen_eq]
    exact pyBitLen_eq_log n h
  · intro bs lst r hlen hok
    obtain ⟨-, hrem, -, -⟩ := consumeFromList_ok hok
    rw [hrem, hlen, List.length_take, pyBitLen_eq_log n h]
  · intro h1 bs lst r hlen hok
    obtain ⟨-, hrem, -, -⟩ := consumeFromList_ok hok
    rw [hrem, hlen, h1]
    rfl

/-- C6 witness: the claim's instance table
`n ∈ {1,2,3,4,5,8,9} ↦ {0,1,1,2,2,3,3}`, with the `n = 9` column obtained
by applying the theorem. -/
theorem C6_code_length_formula_witness :
    (1 ≤ 9 ∧ Nat.log 2 9 = 3) ∧
    pyBitLen 1 = 0 ∧ pyBitLen 2 = 1 ∧ pyBitLen 3 = 1 ∧ pyBitLen 4 = 2 ∧
    pyBitLen 5 = 2 ∧ pyBitLen 8 = 3 ∧ pyBitLen 9 = 3 ∧
    decNextBitLen 1 = 0 ∧ decNextBitLen 9 = 3 := by
  have h9 := (C6_code_length_formula 9 (by decide)).1
  refine ⟨⟨by decide, ?_⟩, by decide, by decide, by decide, by decide,
    by decide, by decide, by decide, by decide, by decide⟩
  rw [← h9]
  decide

/-- C7: the Enhanced encoder's and decoder's `_get_transitions` are the same
function of the model (hence repeated computations agree); a successful
lookup returns the frequency table sorted descending, and the sort is the
stable descending sort: its result is a permutation of the input, pairwise
descending in frequency, and the elements of any fixed frequency appear in
exactly their model (insertion) order; the tie example
`[u:1, v:2, w:1] ↦ [v:2, u:1, w:1]` matches the hand-computed order. -/
theorem C7_canonical_order_determinism :
    (∀ (m : Model) (g : Gram),
      EnhancedEncoder.getTransitions m g = EnhancedDecoder.getTransitions m g) ∧
    (∀ (m : Model) (g : Gram) (fs : Freqs), m.lookup g = some fs →
      EnhancedEncoder.getTransitions m g = .ok ((sortDesc fs).map (·.1))) ∧
    (∀ fs : Freqs, List.Perm (sortDesc fs) fs) ∧
    (∀ fs : Freqs, List.Sorted freqGe (sortDesc fs)) ∧
    (∀ (fs : Freqs) (q : Nat),
      (sortDesc fs).filter (fun kv => kv.2 == q) =
        fs.filter (fun kv => kv.2 == q)) ∧
    sortDesc [(("u"), 1), (("v"), 2), (("w"), 1)] =
      [(("v"), 2), (("u"), 1), (("w"), 1)] := by
  refine ⟨fun m g => rfl, ?_, sortDesc_perm, sortDesc_sorted,
    filter_sortDesc, by decide⟩
  intro m g fs hfs
  unfold EnhancedEncoder.getTransitions
  rw [hfs]
  rfl

/-- C7 witness: the lookup conjunct applied to the tie-breaking model at its
entry context. -/
theorem C7_canonical_order_determinism_witness :
    entryModel.lookup [START, START] = some [(("the"), 1), (("a"), 1)] ∧
    EnhancedEncoder.getTransitions entryModel [START, START] =
      .ok [("the"), ("a")] := by
  have h := C7_canonical_order_determinism.2.1 entryModel [START, START]
    [(("the"), 1), (("a"), 1)] (by decide)
  refine ⟨by decide, ?_⟩
  rw [h]
  decide

/-- C2 counterexample: on the spec's own example model (`k = 2`, keys
`[(START,START), (START,"the"), (START,"a")]` in order) the code extracts
`["a"]`, not `["the","a"]`: the all-START key contains two STARTs, so it
never passes the `count == k-1` filter, and the `[1:]` drop removes the
genuine entrypoint key `(START,"the")` instead. -/
theorem C2_entrypoints_counterexample :
    EnhancedEncoder.getEntrypoints entryModel = .ok [("a")] ∧
    ([("a")] : List String) ≠ [("the"), ("a")] := by
  exact ⟨by decide, by decide⟩

/-- C2 (amended): for `k ≥ 2` the entrypoints are the last elements of the
context keys containing exactly `k-1` START tokens with the first such key
dropped; the all-START key (which contains `k` STARTs) is never among the
filtered keys, so the dropped key is a genuine entry key, not the all-START
key. -/
theorem C2_entrypoints_extraction (m : Model) (h : 2 ≤ m.stateSize) :
    EnhancedEncoder.getEntrypoints m =
      .ok ((((m.keys).filter
        (fun key => key.count START = m.stateSize - 1)).map
          (fun key => key.getLastD (""))).drop 1) ∧
    (List.replicate m.stateSize START).count START ≠ m.stateSize - 1 ∧
    (∀ key ∈ (m.keys).filter
        (fun key => key.count START = m.stateSize - 1),
      key ≠ List.replicate m.stateSize START) := by
  refine ⟨?_, ?_, ?_⟩
  · unfold EnhancedEncoder.getEntrypoints
    rw [if_neg (by omega)]
  · rw [List.count_replicate_self]
    omega
  · intro key hk heq
    rw [List.mem_filter] at hk
    have hcount : key.count START = m.stateSize - 1 := by
      have := hk.2
      simpa using this
    rw [heq, List.count_replicate_self] at hcount
    omega

/-- C2 witness: the amended extraction applied to the example model. -/
theorem C2_entrypoints_extraction_witness :
    2 ≤ entryModel.stateSize ∧
    EnhancedEncoder.getEntrypoints entryModel =
      .ok ((((entryModel.keys).filter
        (fun key => key.count START = entryModel.stateSize - 1)).map
          (fun key => key.getLastD (""))).drop 1) :=
  ⟨by decide, (C2_entrypoints_extraction entryModel (by decide)).1⟩

/-- C5 counterexample: `_inject_end_key` with a 26-bit final removal
succeeds and appends `chr(97+26) = '\x7b'` to the chosen token — no
rejection, no clamping, no error. -/
theorem C5_endkey_range_counterexample :
    EnhancedEncoder.injectEndKey 0 (List.replicate 26 false)
      { bitstream := [], bitstreamLength0 := 8, entrypoints := [],
        currentGram := none, outputTokens := [("w")], exhausted := false,
        finished := false, endKey := 0 } =
      .ok { bitstream := [], bitstreamLength0 := 8, entrypoints := [],
            currentGram := none, outputTokens := [("w\x7b")],
            exhausted := false, finished := true, endKey := 26 } := by
  decide

/-- C5 (amended): the end key `c = |removed|` is embedded by appending the
single character `chr(97 + c)` to the randomly chosen token (so `c = 0 ↦
'a'`, `c = 25 ↦ 'z'`), but no range check exists: any `c ≥ 26` is embedded
the same way (`c = 26 ↦ '\x7b'`) instead of being rejected. -/
theorem C5_endkey_embedding (pick : Nat) (removed : List Bool)
    (st : EnhancedEncoder.St) (h : st.outputTokens ≠ []) :
    EnhancedEncoder.injectEndKey pick removed st =
      .ok { st with
            endKey := removed.length,
            outputTokens :=
              st.outputTokens.set (pick % st.outputTokens.length)
                ((st.outputTokens.getD (pick % st.outputTokens.length)
                  ("")).push (Char.ofNat (97 + removed.length))),
            finished := true } ∧
    Char.ofNat (97 + 0) = 'a' ∧ Char.ofNat (97 + 25) = 'z' ∧
    Char.ofNat (97 + 26) = '\x7b' := by
  refine ⟨?_, by decide, by decide, by decide⟩
  unfold EnhancedEncoder.injectEndKey
  rw [if_neg h]

/-- C5 witness: the embedding applied at a one-token state with a one-bit
final removal (`c = 1 ↦ 'b'`). -/
theorem C5_endkey_embedding_witness :
    (([("w")] : List String) ≠ []) ∧
    EnhancedEncoder.injectEndKey 3 [true]
      { bitstream := [], bitstreamLength0 := 1, entrypoints := [],
        currentGram := none, outputTokens := [("w")], exhausted := false,
        finished := false, endKey := 0 } =
      .ok { bitstream := [], bitstreamLength0 := 1, entrypoints := [],
            currentGram := none, outputTokens := [("wb")],
            exhausted := false, finished := true, endKey := 1 } := by
  refine ⟨by decide, ?_⟩
  have h := (C5_endkey_embedding 3 [true]
    { bitstream := [], bitstreamLength0 := 1, entrypoints := [],
      currentGram := none, outputTokens := [("w")], exhausted := false,
      finished := false, endKey := 0 } (by decide)).1
  rw [h]
  decide

/-- C1: Enhanced round trip fails.  On `roundTripModel` (whose entrypoints
list is the singleton `["y"]`) the encoder embeds the byte `0xB2` as
`"yb b a b b a a b a"` (marker position 0, end key `'b'`), but the decoder
returns nine bits `010110010`: `_choose_entrypoint` lacks the
`bit_length != 0` guard present in `_choose_next_token`, so the entry step
appends the spurious bit `bin(0)[2:].zfill(0) = "0"`. -/
theorem C1_roundtrip_failure :
    EnhancedEncoder.generate roundTripModel 0 roundTripPayload 20 =
      .ok (some ("yb b a b b a a b a")) ∧
    EnhancedDecoder.solve roundTripModel ("yb b a b b a a b a") 30 =
      .ok (some [false, true, false, true, true, false, false, true, false]) ∧
    ([false, true, false, true, true, false, false, true, false] ≠
      roundTripPayload) := by
  exact ⟨by decide, by decide, by decide⟩

/-- C3: the Existing decoder does not fail on a literal-escape token.  On
`literalModel` with stego text `"u p <01>"` the bracket literal sits in the
final position: the step consuming it appends no bits and renames the token
to the placeholder `"INVALID TOKEN {next_token}"` (an un-prefixed f-string
in the source), the session then finishes normally, and `solve` returns a
truncated bitstream with no error at all. -/
theorem C3_literal_escape_silent :
    ExistingDecoder.solve literalModel ("u p <01>") 10 = .ok (some [false]) ∧
    (do
      let st0 ← ExistingDecoder.init literalModel ("u p <01>")
      let (st1, _) ← ExistingDecoder.step literalModel st0
      let (st2, _) ← ExistingDecoder.step literalModel st1
      let (st3, _) ← ExistingDecoder.step literalModel st2
      pure (st3.currentGram, st3.finished, st3.output) :
      Except Err (Option Gram × Bool × List Bool)) =
      .ok (some [("p"), ("INVALID TOKEN {next_token}")], false, [false]) := by
  exact ⟨by decide, by decide⟩

/-- C4 counterexample: with the current token ending in `'.'` and END among
the valid transitions, but the next literal token `x` also a valid
transition, the Existing decoder does NOT treat the chain as ended: it
consumes `x` normally (`exhausted` stays false, the context slides to
`("go.", "x")`, and `x`'s prefix code is appended). -/
theorem C4_forced_end_counterexample :
    ExistingDecoder.step punctModel punctState =
      .ok ({ punctState with
             currentGram := some [("go."), ("x")]
             index := 1
             output := [true] }, .progress 1 3) ∧
    ({ punctState with
       currentGram := some [("go."), ("x")]
       index := 1
       output := [true] } : ExistingDecoder.St).exhausted = false := by
  exact ⟨by decide, by decide⟩

/-- C4 (amended): the punctuation heuristic forces END only conditionally:
with more than one transition it fires only when the next literal token is
NOT among the valid transitions; with exactly one transition (necessarily
END itself, given END is present) it fires regardless of the next literal
token.  In both firing cases the step sets `exhausted` and slides the
context with END. -/
theorem C4_punctuation_forced_end (m : Model) (st : ExistingDecoder.St)
    (g : Gram) (t1 : String) (c : Char) (fs : Freqs)
    (hex : st.exhausted = false)
    (hidx : (st.index : Int) < (st.stegaText.length : Int) - 1)
    (hg : st.currentGram = some g)
    (hfs : m.lookup g = some fs)
    (ht1 : g.get? 1 = some t1)
    (hc : t1.data.getLast? = some c)
    (hpunct : c = '.' ∨ c = '?' ∨ c = '!')
    (hend : ENDTOK ∈ fs.map (·.1)) :
    (∀ (nt : String), 1 < fs.length →
      st.stegaText.get? (st.index + 1) = some nt → nt ∉ fs.map (·.1) →
      ∀ (st' : ExistingDecoder.St) (r : StepRet),
        ExistingDecoder.step m st = .ok (st', r) →
        st'.exhausted = true ∧
          st'.currentGram = some ((g ++ [ENDTOK]).drop 1)) ∧
    (fs.length = 1 →
      ∀ (st' : ExistingDecoder.St) (r : StepRet),
        ExistingDecoder.step m st = .ok (st', r) →
        st'.exhausted = true ∧
          st'.currentGram = some ((g ++ [ENDTOK]).drop 1)) := by
  have hguard : ¬ ((st.stegaText.length : Int) - 1 ≤ (st.index : Int) ∧
      st.exhausted = false) := by
    intro h
    omega
  have hatEnd : ¬ ((st.index : Int) = (st.stegaText.length : Int) - 1) := by
    omega
  have hlen0 : ¬ st.stegaText.length = 0 := by omega
  rw [List.get?_eq_getElem?] at ht1
  have hpunctB : ExistingDecoder.gramEndsTerminal g = .ok true := by
    unfold ExistingDecoder.gramEndsTerminal
    rcases hpunct with h | h | h <;> simp [ht1, hc, h, orErr, bind, Except.bind]
  have hlit : isLiteralEscape ENDTOK = false := by decide
  constructor
  · intro nt hlen hnt hnotin st' r hok
    unfold ExistingDecoder.step at hok
    rw [if_neg hguard] at hok
    simp only [hex, Bool.false_eq_true, if_false, bind, Except.bind, hg, hfs,
      orErr, hpunctB, hatEnd, hnt, hlen, if_true, hlit, hend, hnotin,
      not_false_eq_true, and_self, if_pos, ite_false, ite_true] at hok
    cases hcb : List.lookup ENDTOK (huffmanCodebook fs) with
    | none =>
      rw [hcb] at hok
      exact absurd hok (by simp)
    | some code =>
      simp only [hcb, hlen0, if_false, ite_false] at hok
      cases hok
      exact ⟨rfl, rfl⟩
  · intro hlen1 st' r hok
    have hlen' : ¬ 1 < fs.length := by omega
    unfold ExistingDecoder.step at hok
    rw [if_neg hguard] at hok
    cases hnt : st.stegaText.get? (st.index + 1) with
    | none =>
      simp only [hex, Bool.false_eq_true, if_false, bind, Except.bind, hg,
        hfs, orErr, hatEnd, hnt, hlen', ite_false, ite_true] at hok
      exact absurd hok (by simp)
    | some nt =>
      simp only [hex, Bool.false_eq_true, if_false, bind, Except.bind, hg,
        hfs, orErr, hpunctB, hatEnd, hnt, hlen', hend, and_self, if_pos,
        if_true, ite_false, ite_true, hlen0] at hok
      cases hok
      exact ⟨rfl, rfl⟩

/-- C4 witness: the firing case of the amended heuristic at a concrete
state whose next literal token `z` is not a valid transition. -/
theorem C4_punctuation_forced_end_witness :
    ExistingDecoder.step punctModel punctStateForced =
      .ok ({ punctStateForced with
             currentGram := some [("go."), ENDTOK]
             exhausted := true
             index := 1
             output := [false] }, .progress 1 3) ∧
    ({ punctStateForced with
       currentGram := some [("go."), ENDTOK]
       exhausted := true
       index := 1
       output := [false] } : ExistingDecoder.St).exhausted = true := by
  have h := (C4_punctuation_forced_end punctModel punctStateForced
    [START, ("go.")] ("go.") ('.') [(("x"), 2), (ENDTOK, 1)]
    (by decide) (by decide) (by decide) (by decide) (by decide) (by decide)
    (Or.inl rfl) (by decide)).1 ("z") (by decide) (by decide) (by decide)
  refine ⟨by decide, ?_⟩
  exact (h ({ punctStateForced with
    currentGram := some [("go."), ENDTOK]
    exhausted := true
    index := 1
    output := [false] }) (.progress 1 3) (by decide)).1

/-- C9: with an empty bitstream, `EnhancedEncoder.step` never returns a
progress value: every session whose construction succeeded aborts with an
exception, and whenever the model has any entrypoint at all the exception
is exactly one of the two mechanisms in the claim — `int("", 2)` on the
first index decode (two or more entrypoints) or the zero division by
`bitstream_length = 0` in the progress computation (one entrypoint, where
the zero-width entry selection immediately injects the end key). -/
theorem C9_empty_payload_never_progresses (m : Model) (pick : Nat)
    (st : EnhancedEncoder.St)
    (h : EnhancedEncoder.init m [] = .ok st) :
    (∀ r : EnhancedEncoder.St × StepRet,
      EnhancedEncoder.step m pick st ≠ .ok r) ∧
    (st.entrypoints ≠ [] →
      EnhancedEncoder.step m pick st = .error .intEmpty ∨
      EnhancedEncoder.step m pick st = .error .divZero) := by
  unfold EnhancedEncoder.init at h
  cases hE : EnhancedEncoder.getEntrypoints m with
  | error e =>
    rw [hE] at h
    exact absurd h (by simp [bind, Except.bind])
  | ok eps =>
    rw [hE] at h
    simp only [bind, Except.bind] at h
    cases h
    match eps with
    | [] =>
      have hstep : EnhancedEncoder.step m pick
          { bitstream := [], bitstreamLength0 := List.length ([] : List Bool),
            entrypoints := [], currentGram := none, outputTokens := [],
            exhausted := true, finished := false, endKey := 0 } =
          .error .emptyLog := by
        simp [EnhancedEncoder.step, EnhancedEncoder.chooseEntrypoint,
          EnhancedEncoder.consumeFromList, bind, Except.bind]
      rw [hstep]
      constructor
      · intro r hr
        cases hr
      · intro hne
        exact absurd rfl hne
    | [e] =>
      have hstep : EnhancedEncoder.step m pick
          { bitstream := [], bitstreamLength0 := List.length ([] : List Bool),
            entrypoints := [e], currentGram := none, outputTokens := [],
            exhausted := true, finished := false, endKey := 0 } =
          .error .divZero := by
        simp [EnhancedEncoder.step, EnhancedEncoder.chooseEntrypoint,
          EnhancedEncoder.consumeFromList, EnhancedEncoder.injectEndKey,
          bind, Except.bind, pyBitLen, ceilLog2, floorLog2, log2Fuel]
      rw [hstep]
      constructor
      · intro r hr
        cases hr
      · intro hne
        exact Or.inr rfl
    | e1 :: e2 :: rest =>
      have hbl : ¬ pyBitLen (rest.length + 1 + 1) = 0 := by
        have := pyBitLen_pos (rest.length + 1 + 1) (by omega)
        omega
      have hstep : EnhancedEncoder.step m pick
          { bitstream := [], bitstreamLength0 := List.length ([] : List Bool),
            entrypoints := e1 :: e2 :: rest, currentGram := none,
            outputTokens := [], exhausted := true, finished := false,
            endKey := 0 } =
          .error .intEmpty := by
        simp [EnhancedEncoder.step, EnhancedEncoder.chooseEntrypoint,
          EnhancedEncoder.consumeFromList, bind, Except.bind, hbl]
      rw [hstep]
      constructor
      · intro r hr
        cases hr
      · intro hne
        exact Or.inl rfl

/-- C9 witness: on a concrete two-entrypoint model, the empty-payload
session's first step raises the `int("", 2)` error. -/
theorem C9_empty_payload_never_progresses_witness :
    EnhancedEncoder.init emptyBitsModel [] =
      .ok { bitstream := [], bitstreamLength0 := 0,
            entrypoints := [("q"), ("r")], currentGram := none,
            outputTokens := [], exhausted := true, finished := false,
            endKey := 0 } ∧
    (EnhancedEncoder.step emptyBitsModel 0
        { bitstream := [], bitstreamLength0 := 0,
          entrypoints := [("q"), ("r")], currentGram := none,
          outputTokens := [], exhausted := true, finished := false,
          endKey := 0 } = .error .intEmpty ∨
     EnhancedEncoder.step emptyBitsModel 0
        { bitstream := [], bitstreamLength0 := 0,
          entrypoints := [("q"), ("r")], currentGram := none,
          outputTokens := [], exhausted := true, finished := false,
          endKey := 0 } = .error .divZero) := by
  refine ⟨by decide, ?_⟩
  exact (C9_empty_payload_never_progresses emptyBitsModel 0 _ (by decide)).2
    (by decide)

/-- Association-list lookup misses when no key has the probe's length. -/
theorem lookup_len_ne {β : Type} (chain : List (Gram × β)) (g : Gram)
    (h : ∀ k ∈ chain.map (·.1), k.length ≠ g.length) :
    List.lookup g chain = none := by
  induction chain with
  | nil => rfl
  | cons kv tl ih =>
    obtain ⟨k1, v1⟩ := kv
    simp only [List.lookup]
    cases hbeq : g == k1 with
    | true =>
      have hgk : g = k1 := eq_of_beq hbeq
      have hmem : k1 ∈ ((k1, v1) :: tl).map (·.1) := by
        rw [List.map_cons]
        exact List.mem_cons_self _ _
      have hk := h k1 hmem
      rw [hgk] at hk
      exact absurd rfl hk
    | false =>
      exact ih (fun k hk => h k (by simp [hk]))

/-- `_inject_end_key` never touches the current context. -/
theorem injectEndKey_gram {pick : Nat} {removed : List Bool}
    {s s' : EnhancedEncoder.St}
    (h : EnhancedEncoder.injectEndKey pick removed s = .ok s') :
    s'.currentGram = s.currentGram := by
  unfold EnhancedEncoder.injectEndKey at h
  split at h
  · exact absurd h (by simp)
  · cases h
    rfl

/-- Mapping `key[1]` over keys of length at least 2 never raises. -/
theorem mapM_entry1 (l : List Gram) (h : ∀ k ∈ l, 2 ≤ k.length) :
    (l.mapM (fun key => orErr (key.get? 1) (Err.indexRange)) :
      Except Err (List String)) =
      .ok (l.map (fun k => k.getD 1 (""))) := by
  induction l with
  | nil => rfl
  | cons k tl ih =>
    have hk : 2 ≤ k.length := h k (by simp)
    have hget : k[1]? = some (k.getD 1 ("")) := by
      rw [List.getElem?_eq_getElem (by omega), List.getD_eq_getElem?_getD,
        List.getElem?_eq_getElem (by omega)]
      rfl
    have ho : orErr (k.get? 1) (Err.indexRange) = .ok (k.getD 1 ("")) := by
      rw [List.get?_eq_getElem?, hget]
      rfl
    rw [List.mapM_cons, ho, ih (fun k hk => h k (by simp [hk]))]
    rfl

/-- C10 counterexample: for `state_size = 3` the ExistingEncoder's entry
context is the full 3-tuple stored key `(START, START, "w")` — not a fixed
2-tuple — its model lookup succeeds, and the emitted "entry token"
(element 1 of the key) is the START sentinel itself. -/
theorem C10_state_size_counterexample :
    ExistingEncoder.step size3Model 0 (ExistingEncoder.init size3Model [true]) =
      .ok ({ bitstream := [true], bitstreamLength0 := 1,
             entrypoints := [[START, START, ("w")], [START, START, ("v")]],
             currentGram := some [START, START, ("w")],
             outputTokens := [START], exhausted := false, finished := false,
             c := 1 }, .progress 0 1) ∧
    (List.length [START, START, ("w")] = 3 ∧ (3 : Nat) ≠ 2) ∧
    (size3Model.lookup [START, START, ("w")]).isSome = true := by
  exact ⟨by decide, ⟨by decide, by decide⟩, by decide⟩

/-- C10 (amended): the fixed 2-tuple entry context belongs to the
ExistingDecoder only: its entry step always builds `(START, token)` (length
2, independent of `state_size`) and its init reads element 1 of every
START-containing key, so its entry lookups can only succeed when the model's
keys are 2-tuples (`state_size = 2`).  The ExistingEncoder instead uses a
full stored key (length = `state_size`) as its entry context — so its
lookups can succeed for any state size — while emitting element 1 of that
key.  The Enhanced encoder builds entry contexts of length `state_size` for
every `state_size ≥ 1`. -/
theorem C10_entry_context_shapes :
    (∀ (m : Model) (st : ExistingDecoder.St) (tok : String),
      st.exhausted = true → st.stegaText.get? st.index = some tok →
      ∀ (st' : ExistingDecoder.St) (r : StepRet),
        ExistingDecoder.step m st = .ok (st', r) →
        st'.currentGram = some [START, tok] ∧
          (some [START, tok]).map List.length = some 2) ∧
    (∀ (m : Model),
      (∀ k ∈ (m.keys).filter (fun key => START ∈ key), 2 ≤ k.length) →
      ExistingDecoder.initEntrypoints m =
        .ok ((((m.keys).filter (fun key => START ∈ key)).map
          (fun k => k.getD 1 (""))).drop 1)) ∧
    (∀ (m : Model) (t : String),
      (∀ k ∈ m.keys, k.length ≠ 2) → m.lookup [START, t] = none) ∧
    (∀ (m : Model) (pick : Nat) (st st' : EnhancedEncoder.St),
      1 ≤ m.stateSize → EnhancedEncoder.chooseEntrypoint m pick st = .ok st' →
      ∃ g : Gram, st'.currentGram = some g ∧ g.length = m.stateSize) ∧
    (∀ (m : Model) (pick : Nat) (st st' : ExistingEncoder.St) (r : StepRet),
      st.finished = false → st.exhausted = true →
      ExistingEncoder.step m pick st = .ok (st', r) →
      ∃ g ∈ st.entrypoints, st'.currentGram = some g ∧
        st'.outputTokens = st.outputTokens ++ [g.getD 1 ("")]) := by
  refine ⟨?_, ?_, ?_, ?_, ?_⟩
  · -- ExistingDecoder entry context is the fixed 2-tuple (START, token)
    intro m st tok hex htok st' r hok
    unfold ExistingDecoder.step at hok
    rw [if_neg (by simp [hex])] at hok
    have hlt : st.index < st.stegaText.length := by
      by_contra hge
      rw [List.get?_eq_none.mpr (by omega)] at htok
      cases htok
    have hlen0 : ¬ st.stegaText.length = 0 := by omega
    simp only [hex, if_true, ite_true, bind, Except.bind, htok, orErr,
      hlen0, if_false, ite_false] at hok
    cases hok
    exact ⟨rfl, rfl⟩
  · -- ExistingDecoder entrypoints: element 1 of START-containing keys
    intro m hkeys
    unfold ExistingDecoder.initEntrypoints
    dsimp only
    rw [mapM_entry1 _ hkeys]
    rfl
  · -- decoder entry lookups fail when no key is a 2-tuple
    intro m t hkeys
    exact lookup_len_ne m.chain [START, t] (fun k hk => by
      have := hkeys k hk
      simp
      omega)
  · -- Enhanced entry context has length state_size for every state_size ≥ 1
    intro m pick st st' hk hok
    unfold EnhancedEncoder.chooseEntrypoint at hok
    dsimp only at hok
    cases hc : EnhancedEncoder.consumeFromList st.bitstream st.entrypoints with
    | error e =>
      rw [hc] at hok
      exact absurd hok (by simp [bind, Except.bind])
    | ok res =>
      simp only [hc, bind, Except.bind] at hok
      split at hok
      · -- final step: end key injected, context preserved
        have hgram := injectEndKey_gram hok
        rw [hgram]
        by_cases h1 : m.stateSize = 1
        · exact ⟨[res.token], by simp [h1], by simp [h1]⟩
        · refine ⟨List.replicate (m.stateSize - 1) START ++ [res.token],
            by simp [h1], ?_⟩
          simp only [List.length_append, List.length_replicate,
            List.length_cons, List.length_nil]
          omega
      · cases hok
        by_cases h1 : m.stateSize = 1
        · exact ⟨[res.token], by simp [h1], by simp [h1]⟩
        · refine ⟨List.replicate (m.stateSize - 1) START ++ [res.token],
            by simp [h1], ?_⟩
          simp only [List.length_append, List.length_replicate,
            List.length_cons, List.length_nil]
          omega
  · -- ExistingEncoder entry context is the full stored key
    intro m pick st st' r hfin hex hok
    unfold ExistingEncoder.step at hok
    rw [if_neg (by simp [hfin])] at hok
    simp only [hex, if_true, ite_true, bind, Except.bind] at hok
    split at hok
    · exact absurd hok (by simp)
    · next hne =>
      set g := st.entrypoints.get ⟨pick % st.entrypoints.length,
        Nat.mod_lt _ (Nat.pos_of_ne_zero hne)⟩ with hgdef
      cases hg1 : g.get? 1 with
      | none =>
        rw [hg1] at hok
        exact absurd hok (by simp [orErr])
      | some tok =>
        simp only [hg1, orErr, bind, Except.bind] at hok
        have htokD : tok = g.getD 1 ("") := by
          rw [List.getD_eq_getElem?_getD, ← List.get?_eq_getElem?, hg1]
          rfl
        split at hok
        all_goals
          split at hok
          · exact absurd hok (by simp)
          · cases hok
            refine ⟨g, List.get_mem _ _ _, rfl, ?_⟩
            rw [htokD]

/-- C10 witness: the decoder 2-tuple lookup failure applied to the
3-tuple-key model, and the element-1 entrypoint extraction applied to
`literalModel`. -/
theorem C10_entry_context_shapes_witness :
    size3Model.lookup [START, ("q")] = none ∧
    ExistingDecoder.initEntrypoints literalModel = .ok [("u")] := by
  constructor
  · exact C10_entry_context_shapes.2.2.1 size3Model ("q") (by decide)
  · have h := C10_entry_context_shapes.2.1 literalModel (by decide)
    rw [h]
    decide

/-- Successful `EnhancedDecoder._choose_entrypoint` calls never change the
`finished` flag. -/
theorem decEntry_finished {m : Model} {st s' : EnhancedDecoder.St}
    (h : EnhancedDecoder.chooseEntrypoint m st = .ok s') :
    s'.finished = st.finished := by
  unfold EnhancedDecoder.chooseEntrypoint at h
  simp only [bind, Except.bind, orErr] at h
  cases h0 : st.stegaText.get? st.index with
  | none =>
    simp only [h0] at h
    exact Except.noConfusion h
  | some token0 =>
    simp only [h0] at h
    by_cases hmem : token0 ∈ st.entrypoints
    · rw [if_pos hmem] at h
      cases h1 : List.findIdx? (fun x => x == token0) st.entrypoints with
      | none =>
        simp only [h1] at h
        exact Except.noConfusion h
      | some i =>
        simp only [h1] at h
        cases h
        rfl
    · rw [if_neg hmem] at h
      cases h2 : token0.data.getLast? with
      | none =>
        simp only [h2] at h
        exact Except.noConfusion h
      | some c =>
        simp only [h2] at h
        cases h1 : List.findIdx?
            (fun x => x == String.mk token0.data.dropLast) st.entrypoints with
        | none =>
          simp only [h1] at h
          exact Except.noConfusion h
        | some i =>
          simp only [h1] at h
          cases h
          rfl

/-- Successful `EnhancedDecoder._choose_next_token` calls never change the
`finished` flag. -/
theorem decNext_finished {m : Model} {st s' : EnhancedDecoder.St}
    (h : EnhancedDecoder.chooseNextToken m st = .ok s') :
    s'.finished = st.finished := by
  unfold EnhancedDecoder.chooseNextToken at h
  simp only [bind, Except.bind, orErr, EnhancedDecoder.getTransitions] at h
  cases hg : st.currentGram with
  | none =>
    simp only [hg] at h
    exact Except.noConfusion h
  | some gram =>
    simp only [hg] at h
    cases hl : m.lookup gram with
    | none =>
      simp only [hl] at h
      exact Except.noConfusion h
    | some fs =>
      simp only [hl] at h
      repeat first
        | (exact Except.noConfusion h)
        | (cases h; rfl)
        | split at h

/-- Every successful `EnhancedDecoder.step` either fires the terminating
branch (which requires the end-of-text condition with `exhausted` false,
sets `finished` and returns the constant `1`) or leaves `finished`
unchanged. -/
theorem decStep_shape {m : Model} {st st' : EnhancedDecoder.St} {r : StepRet}
    (hok : EnhancedDecoder.step m st = .ok (st', r)) :
    (((st.stegaText.length : Int) - 1 ≤ (st.index : Int) ∧
        st.exhausted = false) ∧
      st' = { st with finished := true } ∧ r = .complete) ∨
    st'.finished = st.finished := by
  unfold EnhancedDecoder.step at hok
  split at hok
  · next hcond =>
    cases hok
    exact Or.inl ⟨hcond, rfl, rfl⟩
  · right
    simp only [bind, Except.bind] at hok
    cases hex : st.exhausted with
    | true =>
      simp only [hex, if_true, ite_true] at hok
      cases hb : EnhancedDecoder.chooseEntrypoint m st with
      | error e =>
        rw [hb] at hok
        exact Except.noConfusion hok
      | ok st2 =>
        rw [hb] at hok
        dsimp only at hok
        split at hok
        · exact Except.noConfusion hok
        · cases hok
          exact decEntry_finished hb
    | false =>
      simp only [hex, Bool.false_eq_true, if_false, ite_false] at hok
      cases hb : EnhancedDecoder.chooseNextToken m st with
      | error e =>
        rw [hb] at hok
        exact Except.noConfusion hok
      | ok st2 =>
        rw [hb] at hok
        dsimp only at hok
        split at hok
        · exact Except.noConfusion hok
        · cases hok
          exact decNext_finished hb

/-- Every successful `ExistingDecoder.step` either fires the terminating
branch (end-of-text with `exhausted` false; returns the constant `None`) or
leaves `finished` unchanged. -/
theorem exDecStep_shape {m : Model} {st st' : ExistingDecoder.St}
    {r : StepRet}
    (hok : ExistingDecoder.step m st = .ok (st', r)) :
    (((st.stegaText.length : Int) - 1 ≤ (st.index : Int) ∧
        st.exhausted = false) ∧
      st' = { st with finished := true } ∧ r = .pynone) ∨
    st'.finished = st.finished := by
  unfold ExistingDecoder.step at hok
  split at hok
  · next hcond =>
    cases hok
    exact Or.inl ⟨hcond, rfl, rfl⟩
  · right
    simp only [bind, Except.bind, orErr, ExistingDecoder.gramEndsTerminal] at hok
    repeat first
      | (exact Except.noConfusion hok)
      | (cases hok; rfl)
      | split at hok

/-- C8: once `finished` holds, `step()` is idempotent in all four session
classes.  The encoders return the constant completion value immediately
(`1` for Enhanced, `None` for Existing) without touching any field.  The
decoders have no explicit `finished` guard, but every state in which the
source can have set `finished` (the terminating branch is the only writer,
and `__init__` starts with `finished = False`) satisfies `exhausted = false`
and the end-of-text condition, and in such states the step re-fires the
terminating branch: it rewrites `finished` with the same value — leaving
every field unchanged — and returns the same constant completion value. -/
theorem C8_idempotent_terminal_step :
    (∀ (m : Model) (pick : Nat) (st : EnhancedEncoder.St),
      st.finished = true →
      EnhancedEncoder.step m pick st = .ok (st, .complete)) ∧
    (∀ (m : Model) (pick : Nat) (st : ExistingEncoder.St),
      st.finished = true →
      ExistingEncoder.step m pick st = .ok (st, .pynone)) ∧
    (∀ (m : Model) (st : EnhancedDecoder.St),
      st.finished = true → st.exhausted = false →
      (st.stegaText.length : Int) - 1 ≤ (st.index : Int) →
      EnhancedDecoder.step m st = .ok (st, .complete)) ∧
    (∀ (m : Model) (st st' : EnhancedDecoder.St) (r : StepRet),
      st.finished = false → EnhancedDecoder.step m st = .ok (st', r) →
      st'.finished = true →
      st'.exhausted = false ∧
        (st'.stegaText.length : Int) - 1 ≤ (st'.index : Int) ∧
        r = .complete) ∧
    (∀ (m : Model) (st : ExistingDecoder.St),
      st.finished = true → st.exhausted = false →
      (st.stegaText.length : Int) - 1 ≤ (st.index : Int) →
      ExistingDecoder.step m st = .ok (st, .pynone)) ∧
    (∀ (m : Model) (st st' : ExistingDecoder.St) (r : StepRet),
      st.finished = false → ExistingDecoder.step m st = .ok (st', r) →
      st'.finished = true →
      st'.exhausted = false ∧
        (st'.stegaText.length : Int) - 1 ≤ (st'.index : Int) ∧
        r = .pynone) ∧
    (∀ (m : Model) (text : String) (st : EnhancedDecoder.St),
      EnhancedDecoder.init m text = .ok st → st.finished = false) ∧
    (∀ (m : Model) (text : String) (st : ExistingDecoder.St),
      ExistingDecoder.init m text = .ok st → st.finished = false) := by
  refine ⟨?_, ?_, ?_, ?_, ?_, ?_, ?_, ?_⟩
  · intro m pick st h
    simp [EnhancedEncoder.step, h]
  · intro m pick st h
    simp [ExistingEncoder.step, h]
  · intro m st h1 h2 h3
    have hrec : ({ st with finished := true } : EnhancedDecoder.St) = st := by
      cases st
      simp_all
    unfold EnhancedDecoder.step
    rw [if_pos ⟨h3, h2⟩, hrec]
  · intro m st st' r h1 hok h3
    rcases decStep_shape hok with ⟨hcond, hst, hr⟩ | hfin
    · subst hst
      subst hr
      exact ⟨hcond.2, hcond.1, rfl⟩
    · rw [hfin, h1] at h3
      exact absurd h3 (by simp)
  · intro m st h1 h2 h3
    have hrec : ({ st with finished := true } : ExistingDecoder.St) = st := by
      cases st
      simp_all
    unfold ExistingDecoder.step
    rw [if_pos ⟨h3, h2⟩, hrec]
  · intro m st st' r h1 hok h3
    rcases exDecStep_shape hok with ⟨hcond, hst, hr⟩ | hfin
    · subst hst
      subst hr
      exact ⟨hcond.2, hcond.1, rfl⟩
    · rw [hfin, h1] at h3
      exact absurd h3 (by simp)
  · intro m text st h
    unfold EnhancedDecoder.init at h
    cases hE : EnhancedDecoder.getEntrypoints m with
    | error e =>
      rw [hE] at h
      exact absurd h (by simp [bind, Except.bind])
    | ok eps =>
      rw [hE] at h
      simp only [bind, Except.bind] at h
      cases h
      rfl
  · intro m text st h
    unfold ExistingDecoder.init at h
    cases hE : ExistingDecoder.initEntrypoints m with
    | error e =>
      rw [hE] at h
      exact absurd h (by simp [bind, Except.bind])
    | ok eps =>
      rw [hE] at h
      simp only [bind, Except.bind] at h
      cases h
      rfl

/-- C8 witness: a finished Enhanced-encoder session's step returns the
constant completion value and the unchanged state. -/
theorem C8_idempotent_terminal_step_witness :
    finishedEncState.finished = true ∧
    EnhancedEncoder.step roundTripModel 0 finishedEncState =
      .ok (finishedEncState, .complete) :=
  ⟨by decide, C8_idempotent_terminal_step.1 roundTripModel 0 finishedEncState
    (by decide)⟩
